import Mathlib

/-!
Verification of the Sudoku board model and backtracking solver.

The source program is a single Python file.  Its `Board` class wraps a
9x9 list-of-lists of digits (`0` = empty) with validity queries, and a
recursive `solve` function performs backtracking search by mutating the
board in place.  Here the grid is embedded as `List (List Nat)`; each
mutating operation is embedded as an explicit state-passing function
returning the updated grid, and the recursive solver is embedded with a
fuel parameter (the fuel is irrelevant above the number of empty cells,
which is proved below, so `solve` runs it at fuel `numZeros g + 1`).
-/

namespace Sudoku

/-- A Sudoku grid: the `_board` attribute of the Python `Board` class,
a list of rows, each a list of digit values (`0` denotes an empty cell). -/
abbrev Grid := List (List Nat)

/-- The construction-time checks of `Board.__init__` (the `InvalidShape`
assertions): 9 rows, each of 9 columns, every value between 0 and 9.
Values are embedded as `Nat`, so the lower bound `0 <= value` of the
Python assertion holds automatically. -/
def wellFormed (g : Grid) : Prop :=
  g.length = 9 ∧ (∀ row ∈ g, row.length = 9) ∧ (∀ row ∈ g, ∀ v ∈ row, v ≤ 9)

instance : DecidablePred wellFormed := fun _ =>
  inferInstanceAs (Decidable (_ ∧ _))

/-- `Board.get_value(row, column)`: reads `self._board[row][column]`.
All reachable calls in the solver use indices in `[0, 8]`, where this
total embedding agrees with Python list indexing.  (Python's semantics
at arbitrary integer indices is modelled separately by `get_value_py`.) -/
def get_value (g : Grid) (row column : Nat) : Nat :=
  (g.getD row []).getD column 0

/-- `Board.set_value(row, column, value)`: writes
`self._board[row][column] = value`, returning the updated grid. -/
def set_value (g : Grid) (row column value : Nat) : Grid :=
  g.set row ((g.getD row []).set column value)

/-- `Board._is_valid(values)`: the non-zero values of the list must be
pairwise distinct, checked in the source as
`len(set(non_zero_values)) == len(non_zero_values)`; Python's `set` is
embedded as `List.dedup`. -/
def is_valid_group (values : List Nat) : Bool :=
  (values.filter (fun v => v != 0)).dedup.length ==
    (values.filter (fun v => v != 0)).length

/-- `Board._get_columns()`: `[[row[i] for row in self._board] for i in range(9)]`. -/
def get_columns (g : Grid) : List (List Nat) :=
  (List.range 9).map (fun i => g.map (fun row => row.getD i 0))

/-- `Board._get_squares()`: the nine 3x3 blocks,
`[[self._board[i+k][j+l] for k in range(3) for l in range(3)]
  for i in range(0, 9, 3) for j in range(0, 9, 3)]`. -/
def get_squares (g : Grid) : List (List Nat) :=
  (([0, 3, 6] : List Nat)).flatMap (fun i =>
    (([0, 3, 6] : List Nat)).map (fun j =>
      (([0, 1, 2] : List Nat)).flatMap (fun k =>
        (([0, 1, 2] : List Nat)).map (fun l =>
          (g.getD (i + k) []).getD (j + l) 0))))

/-- `Board._is_valid_rows()`. -/
def is_valid_rows (g : Grid) : Bool :=
  g.all is_valid_group

/-- `Board._is_valid_columns()`. -/
def is_valid_columns (g : Grid) : Bool :=
  (get_columns g).all is_valid_group

/-- `Board._is_valid_squares()`. -/
def is_valid_squares (g : Grid) : Bool :=
  (get_squares g).all is_valid_group

/-- `Board.is_valid()`: rows, columns and squares all pass. -/
def is_valid (g : Grid) : Bool :=
  is_valid_rows g && is_valid_columns g && is_valid_squares g

/-- `Board.is_finished()`: every cell non-zero and the board valid. -/
def is_finished (g : Grid) : Bool :=
  (g.all (fun row => row.all (fun v => v != 0))) && is_valid g

/-- `Board.valid_values(row, column)`: probes each digit 1..9 by writing
it into the cell and testing `is_valid()`, then restores the original
value.  Returned as the pair (list of valid digits, grid after the call)
so that the in-place mutation of the Python method is explicit. -/
def valid_values (g : Grid) (row column : Nat) : List Nat × Grid :=
  let original_value := get_value g row column
  let probe := (List.range' 1 9).foldl
    (fun (acc : List Nat × Grid) value =>
      let g1 := set_value acc.2 row column value
      (if is_valid g1 then acc.1 ++ [value] else acc.1, g1))
    ([], g)
  (probe.1, set_value probe.2 row column original_value)

/-- Row-major list of all 81 cell positions, in the order scanned by the
loops `for row in range(9): for column in range(9):` of `solve`. -/
def allPositions : List (Nat × Nat) :=
  (List.range 9).flatMap (fun row => (List.range 9).map (fun column => (row, column)))

/-- The first cell in row-major order holding `0`, if any: the cell that
`solve` selects with its `if board.get_value(row, column) == 0` scan. -/
def findFirstZero (g : Grid) : Option (Nat × Nat) :=
  allPositions.find? (fun p => get_value g p.1 p.2 == 0)

/-- The candidate loop of `solve`: for each value of the pre-computed
candidate list, write it, recurse (`recur`), propagate success, and on
failure reset the cell to 0 before trying the next value.  The grid is
threaded through, mirroring the single mutable board of the source. -/
def goVals (recur : Grid → Grid × Bool) (row column : Nat) :
    Grid → List Nat → Grid × Bool
  | g, [] => (g, false)
  | g, value :: rest =>
    let res := recur (set_value g row column value)
    if res.2 then res
    else goVals recur row column (set_value res.1 row column 0) rest

/-- Fuel-indexed embedding of the recursive `solve(board)`.  The `Bool`
component is `true` when the Python function returns the board and
`false` when it returns `None`; the `Grid` component is the state of the
board when the call returns.  Fuel 0 reports failure; it is proved below
that any fuel above the number of empty cells gives the same result. -/
def solveFuel : Nat → Grid → Grid × Bool
  | 0, g => (g, false)
  | n + 1, g =>
    if is_finished g then (g, true)
    else
      match findFirstZero g with
      | none => (g, false)
      | some (r, c) =>
        let p := valid_values g r c
        goVals (solveFuel n) r c p.2 p.1

/-- Number of empty cells of the grid. -/
def numZeros (g : Grid) : Nat :=
  (allPositions.map (fun p => get_value g p.1 p.2)).count 0

/-- `solve(board)`: the fuel-indexed recursion run with sufficient fuel. -/
def solve (g : Grid) : Grid × Bool :=
  solveFuel (numZeros g + 1) g

/-- One cell of the string rendering: `str(value) if value != 0 else '.'`. -/
def cellStr (value : Nat) : String :=
  if value != 0 then toString value else "."

/-- One printed grid row of `Board.__str__`:
`' | '.join(' '.join(... for value in row[j:j+3]) for j in range(0, 9, 3))`. -/
def formatRow (row : List Nat) : String :=
  String.intercalate " | "
    ((([0, 3, 6] : List Nat)).map (fun j =>
      String.intercalate " " (((row.drop j).take 3).map cellStr)))

/-- The separator row `'-' * 21` of `Board.__str__`. -/
def dashLine : String :=
  String.mk (List.replicate 21 '-')

/-- The list of printed lines built by the loop of `Board.__str__`:
before every row with `i % 3 == 0 and i != 0` a dash line is appended. -/
def boardLines (g : Grid) : List String :=
  g.enum.foldl
    (fun acc p =>
      (if p.1 % 3 == 0 && p.1 != 0 then acc ++ [dashLine] else acc) ++ [formatRow p.2])
    []

/-- `Board.__str__`: the printed lines joined with newlines. -/
def boardStr (g : Grid) : String :=
  String.intercalate "\n" (boardLines g)

/-- Python list index resolution for a list of length `len`: indices in
`[0, len)` are used directly, indices in `[-len, 0)` count from the end,
anything else raises `IndexError` (modelled as `none`). -/
def pyIndex (len : Nat) (i : Int) : Option Nat :=
  if 0 ≤ i ∧ i < (len : Int) then some i.toNat
  else if -(len : Int) ≤ i ∧ i < 0 then some (i + (len : Int)).toNat
  else none

/-- `Board.get_value` at arbitrary integer indices, with Python's list
indexing semantics (`self._board[row][column]`): negative indices wrap,
out-of-range indices raise (modelled as `none`). -/
def get_value_py (g : Grid) (row column : Int) : Option Nat :=
  (pyIndex g.length row).bind (fun ri =>
    let r := g.getD ri []
    (pyIndex r.length column).map (fun ci => r.getD ci 0))

/-- `Board.set_value` at arbitrary integer indices, with Python's list
indexing semantics (`self._board[row][column] = value`). -/
def set_value_py (g : Grid) (row column : Int) (value : Nat) : Option Grid :=
  (pyIndex g.length row).bind (fun ri =>
    let r := g.getD ri []
    (pyIndex r.length column).map (fun ci => g.set ri (r.set ci value)))

/-! ### Definitions taken from the specification's wording

The following definitions formalise the vocabulary of the specification
claims (groups as rows/columns/block-aligned squares, duplicate creation,
clue preservation, ordering), to be compared with the code-derived
definitions above. -/

/-- Spec wording: row `r` of the board, as the list of its 9 cell values. -/
def rowList (g : Grid) (r : Nat) : List Nat :=
  (List.range 9).map (fun c => get_value g r c)

/-- Spec wording: column `c` of the board — cell `c` of every row. -/
def colList (g : Grid) (c : Nat) : List Nat :=
  (List.range 9).map (fun r => get_value g r c)

/-- Row index of entry `t` of block `s` (blocks numbered row-major,
block-aligned at row and column multiples of 3). -/
def sqRow (s t : Nat) : Nat := 3 * (s / 3) + t / 3

/-- Column index of entry `t` of block `s`. -/
def sqCol (s t : Nat) : Nat := 3 * (s % 3) + t % 3

/-- Spec wording: the `s`-th non-overlapping 3x3 sub-square,
block-aligned at row and column multiples of 3. -/
def squareList (g : Grid) (s : Nat) : List Nat :=
  (List.range 9).map (fun t => get_value g (sqRow s t) (sqCol s t))

/-- Index of the block containing cell `(r, c)`. -/
def sqOf (r c : Nat) : Nat := 3 * (r / 3) + c / 3

/-- Position of cell `(r, c)` within its block. -/
def sqPos (r c : Nat) : Nat := 3 * (r % 3) + c % 3

/-- Spec wording of claim C4: each of the 27 groups (9 rows, 9 columns,
9 block-aligned sub-squares) has pairwise-distinct non-zero entries
after excluding its 0-valued entries. -/
def claimGroupsValid (g : Grid) : Bool :=
  (List.range 9).all (fun k =>
    decide ((rowList g k).filter (fun v => v != 0)).Nodup &&
    decide ((colList g k).filter (fun v => v != 0)).Nodup &&
    decide ((squareList g k).filter (fun v => v != 0)).Nodup)

/-- Spec wording of claim C2: setting cell `(r, c)` to `v` creates a
duplicate non-zero digit in `v`'s row, column, or 3x3 block — that is,
`v` already occurs in some other cell of the row, the column, or the
block of `(r, c)`. -/
def createsDuplicate (g : Grid) (r c v : Nat) : Bool :=
  ((rowList g r).eraseIdx c).contains v ||
  ((colList g c).eraseIdx r).contains v ||
  ((squareList g (sqOf r c)).eraseIdx (sqPos r c)).contains v

/-- Spec wording of claim C1: every cell that was non-zero in the first
grid holds the same digit in the second grid. -/
def cluesPreserved (g g1 : Grid) : Bool :=
  (List.range 9).all (fun r => (List.range 9).all (fun c =>
    get_value g r c == 0 || get_value g1 r c == get_value g r c))

/-- Spec wording of claim C3: the digits of the list are in strictly
ascending order. -/
def ascendingOK : List Nat → Bool
  | [] => true
  | [_] => true
  | a :: b :: rest => a < b && ascendingOK (b :: rest)

/-- Spec wording of claim C3: all digits of the list lie in `[1, 9]`. -/
def digitsOK (l : List Nat) : Bool :=
  l.all (fun v => 1 ≤ v && v ≤ 9)

/-- Spec wording of claim C9: every one of the nine printed grid rows is
exactly 21 characters long. -/
def lineLengthsOK (g : Grid) : Bool :=
  (List.range 9).all (fun i => (formatRow (g.getD i [])).length == 21)

/-- The two read-only board queries of claim C10. -/
inductive Query where
  | isValidQ : Query
  | isFinishedQ : Query
deriving DecidableEq

/-- Run one query against the board state.  `is_valid` and `is_finished`
perform only reads (directly and through the derived row, column and
square views), so the board state they return is the one they received. -/
def runQuery : Query → Grid → Bool × Grid
  | .isValidQ, g => (is_valid g, g)
  | .isFinishedQ, g => (is_finished g, g)

/-- Run a sequence of queries, threading the board state through. -/
def runQueries : List Query → Grid → List Bool × Grid
  | [], g => ([], g)
  | q :: qs, g =>
    let r := runQuery q g
    let rest := runQueries qs r.2
    (r.1 :: rest.1, rest.2)

/-- Spec wording of claim C9: one printed grid row, spelled out — `.` or
the digit for each cell, a single space between digits of the same
3-cell group, and a ` | ` separator every 3 columns. -/
def renderRowClaim (g : Grid) (r : Nat) : String :=
  (cellStr (get_value g r 0) ++ " " ++ cellStr (get_value g r 1) ++ " " ++
    cellStr (get_value g r 2)) ++ " | " ++
  (cellStr (get_value g r 3) ++ " " ++ cellStr (get_value g r 4) ++ " " ++
    cellStr (get_value g r 5)) ++ " | " ++
  (cellStr (get_value g r 6) ++ " " ++ cellStr (get_value g r 7) ++ " " ++
    cellStr (get_value g r 8))

/-- Resolution of a Python index in `[-9, 8]` against a length-9 list:
negative indices count from the end. -/
def pyNorm (i : Int) : Nat :=
  (if i < 0 then i + 9 else i).toNat

/-- The sample puzzle hard-coded in `main`. -/
def samplePuzzle : Grid :=
  [[0, 0, 7, 0, 8, 0, 4, 0, 2],
   [0, 0, 9, 0, 5, 0, 0, 0, 0],
   [0, 8, 0, 0, 7, 4, 5, 0, 9],
   [0, 0, 0, 0, 0, 0, 0, 6, 0],
   [0, 0, 1, 0, 0, 5, 0, 2, 0],
   [4, 9, 0, 8, 0, 7, 0, 5, 0],
   [7, 3, 4, 5, 1, 6, 2, 9, 8],
   [0, 0, 6, 0, 2, 0, 0, 4, 0],
   [0, 0, 0, 0, 0, 0, 0, 0, 0]]

/-- A complete valid grid with one cell cleared: a one-step solve. -/
def boardC1w : Grid :=
  [[0, 2, 3, 4, 5, 6, 7, 8, 9],
   [4, 5, 6, 7, 8, 9, 1, 2, 3],
   [7, 8, 9, 1, 2, 3, 4, 5, 6],
   [2, 3, 4, 5, 6, 7, 8, 9, 1],
   [5, 6, 7, 8, 9, 1, 2, 3, 4],
   [8, 9, 1, 2, 3, 4, 5, 6, 7],
   [3, 4, 5, 6, 7, 8, 9, 1, 2],
   [6, 7, 8, 9, 1, 2, 3, 4, 5],
   [9, 1, 2, 3, 4, 5, 6, 7, 8]]

/-- A board with a duplicate confined to row 0, away from cell (8, 8). -/
def boardC2cex : Grid :=
  [5, 5, 0, 0, 0, 0, 0, 0, 0] :: List.replicate 8 (List.replicate 9 0)

/-- A valid board with a single clue 5 at (0, 0). -/
def boardC2w : Grid :=
  [5, 0, 0, 0, 0, 0, 0, 0, 0] :: List.replicate 8 (List.replicate 9 0)

/-- A valid but unsolvable board: cell (0, 0) admits no digit, since
1..8 appear in row 0 and 9 appears below it in column 0. -/
def boardC5w : Grid :=
  [0, 1, 2, 3, 4, 5, 6, 7, 8] :: ([9, 0, 0, 0, 0, 0, 0, 0, 0] ::
    List.replicate 7 (List.replicate 9 0))

/-- A contradictory board: two equal clues in column 0. -/
def boardC6w : Grid :=
  [5, 0, 0, 0, 0, 0, 0, 0, 0] :: ([5, 0, 0, 0, 0, 0, 0, 0, 0] ::
    List.replicate 7 (List.replicate 9 0))

/-- A complete valid grid with one cell cleared, for the fuel bound. -/
def boardC7w : Grid :=
  [[1, 2, 3, 4, 5, 6, 7, 8, 9],
   [4, 5, 6, 7, 8, 9, 1, 2, 3],
   [7, 8, 9, 1, 2, 3, 4, 5, 6],
   [2, 3, 4, 5, 6, 7, 8, 9, 1],
   [5, 6, 7, 8, 9, 1, 2, 3, 4],
   [8, 9, 1, 2, 3, 4, 5, 6, 7],
   [3, 4, 5, 6, 7, 8, 9, 1, 2],
   [6, 7, 8, 9, 1, 2, 3, 4, 5],
   [9, 1, 2, 3, 4, 5, 6, 7, 0]]

/-- A board with the clue 7 at cell (8, 0), read by a negative index. -/
def boardC8cex : Grid :=
  List.replicate 8 (List.replicate 9 0) ++ [[7, 0, 0, 0, 0, 0, 0, 0, 0]]

/-! ### List-level helper lemmas -/

theorem set_getD_self {α : Type _} :
    ∀ (l : List α) (i : Nat) (d : α), l.set i (l.getD i d) = l
  | [], _, _ => by simp
  | _ :: _, 0, _ => by simp
  | x :: xs, i + 1, d => by
    simpa using set_getD_self xs i d

theorem getD_set_self {α : Type _} (l : List α) (i : Nat) (x d : α) :
    (l.set i x).getD i d = if i < l.length then x else d := by
  rcases Nat.lt_or_ge i l.length with h | h
  · simp [List.getD_eq_getElem?_getD, List.getElem?_set_self h, h]
  · rw [List.set_eq_of_length_le h]
    simp [List.getD_eq_getElem?_getD, List.getElem?_eq_none h, Nat.not_lt.mpr h]

theorem getD_set_ne {α : Type _} (l : List α) {i j : Nat} (h : i ≠ j) (x d : α) :
    (l.set i x).getD j d = l.getD j d := by
  simp [List.getD_eq_getElem?_getD, List.getElem?_set_ne h]

theorem getD_eq_getElem_of_lt {α : Type _} (l : List α) {i : Nat} (h : i < l.length) (d : α) :
    l.getD i d = l[i] := by
  simp [List.getD_eq_getElem?_getD, List.getElem?_eq_getElem h]

/-- Probing the same cell twice keeps only the second write. -/
theorem set_value_set_value (g : Grid) (r c v w : Nat) :
    set_value (set_value g r c v) r c w = set_value g r c w := by
  unfold set_value
  rw [List.set_set]
  rcases Nat.lt_or_ge r g.length with h | h
  · congr 1
    rw [getD_set_self]
    simp [h, List.set_set]
  · simp [List.set_eq_of_length_le h]

/-- Writing back the value just read is the identity on the grid. -/
theorem set_value_get_value_self (g : Grid) (r c : Nat) :
    set_value g r c (get_value g r c) = g := by
  unfold set_value get_value
  rcases Nat.lt_or_ge r g.length with h | h
  · rw [set_getD_self, set_getD_self]
  · rw [List.set_eq_of_length_le h]

/-- Pointwise description of `set_value`: the written cell holds the new
value when the write lands inside the stored lists, every other cell is
unchanged. -/
theorem get_value_set_value (g : Grid) (r c v a b : Nat) :
    get_value (set_value g r c v) a b =
      if a = r ∧ b = c ∧ r < g.length ∧ c < (g.getD r []).length then v
      else get_value g a b := by
  unfold set_value get_value
  by_cases ha : a = r
  · subst ha
    rcases Nat.lt_or_ge a g.length with h | h
    · rw [getD_set_self, if_pos h]
      by_cases hb : b = c
      · subst hb
        rw [getD_set_self]
        by_cases h2 : b < (g.getD a []).length
        · rw [if_pos h2, if_pos ⟨rfl, rfl, h, h2⟩]
        · rw [if_neg h2, if_neg (fun hcond => h2 hcond.2.2.2)]
          rw [List.getD_eq_getElem?_getD, List.getElem?_eq_none (Nat.le_of_not_lt h2)]
          rfl
      · rw [getD_set_ne _ (fun hcb => hb hcb.symm), if_neg (fun hcond => hb hcond.2.1)]
    · rw [List.set_eq_of_length_le h, if_neg (by omega)]
  · rw [getD_set_ne _ (fun hra => ha hra.symm), if_neg (fun hcond => ha hcond.1)]

/-- In a well-formed grid, rows have length 9 (when they exist). -/
theorem row_length_of_wellFormed {g : Grid} (hw : wellFormed g) {r : Nat}
    (hr : r < 9) : (g.getD r []).length = 9 := by
  obtain ⟨hlen, hrows, _⟩ := hw
  have hrl : r < g.length := by omega
  rw [getD_eq_getElem_of_lt _ hrl]
  exact hrows _ (List.getElem_mem hrl)

/-- In a well-formed grid, cell values are at most 9. -/
theorem get_value_le_of_wellFormed {g : Grid} (hw : wellFormed g) {r c : Nat}
    (hr : r < 9) (hc : c < 9) : get_value g r c ≤ 9 := by
  obtain ⟨hlen, hrows, hvals⟩ := hw
  have hrl : r < g.length := by omega
  unfold get_value
  rw [getD_eq_getElem_of_lt _ hrl]
  have hmem : g[r] ∈ g := List.getElem_mem hrl
  have hcl : c < g[r].length := by rw [hrows _ hmem]; omega
  rw [getD_eq_getElem_of_lt _ hcl]
  exact hvals _ hmem _ (List.getElem_mem hcl)

/-- The in-range `set_value` produces the new value at the written cell. -/
theorem get_value_set_value_self {g : Grid} (hw : wellFormed g) {r c : Nat}
    (hr : r < 9) (hc : c < 9) (v : Nat) :
    get_value (set_value g r c v) r c = v := by
  rw [get_value_set_value]
  have h1 : r < g.length := by have := hw.1; omega
  have h2 : c < (g.getD r []).length := by rw [row_length_of_wellFormed hw hr]; omega
  rw [if_pos ⟨rfl, rfl, h1, h2⟩]

/-- Cells other than the written one are unchanged by `set_value`. -/
theorem get_value_set_value_ne (g : Grid) {r c a b : Nat} (v : Nat)
    (h : ¬(a = r ∧ b = c)) :
    get_value (set_value g r c v) a b = get_value g a b := by
  rw [get_value_set_value]
  simp only [if_neg (by tauto : ¬(a = r ∧ b = c ∧ r < g.length ∧ c < (g.getD r []).length))]

/-- `set_value` with a digit value preserves structural well-formedness. -/
theorem wellFormed_set_value {g : Grid} (hw : wellFormed g) (r c : Nat)
    {v : Nat} (hv : v ≤ 9) : wellFormed (set_value g r c v) := by
  obtain ⟨hlen, hrows, hvals⟩ := hw
  rcases Nat.lt_or_ge r g.length with h | h
  · have hgr : g.getD r [] = g[r] := getD_eq_getElem_of_lt _ h []
    have hmem : g[r] ∈ g := List.getElem_mem h
    refine ⟨by simp [set_value, hlen], ?_, ?_⟩
    · intro row hrow
      rcases List.mem_or_eq_of_mem_set hrow with hin | heq
      · exact hrows _ hin
      · rw [heq, hgr]
        simp [hrows _ hmem]
    · intro row hrow w hwmem
      rcases List.mem_or_eq_of_mem_set hrow with hin | heq
      · exact hvals _ hin _ hwmem
      · rw [heq, hgr] at hwmem
        rcases List.mem_or_eq_of_mem_set hwmem with hin2 | heq2
        · exact hvals _ hmem _ hin2
        · omega
  · rw [set_value, List.set_eq_of_length_le h]
    exact ⟨hlen, hrows, hvals⟩

/-! ### The group validity check -/

/-- The Python `len(set(...)) == len(...)` check is exactly
duplicate-freedom of the non-zero entries. -/
theorem is_valid_group_iff (l : List Nat) :
    is_valid_group l = true ↔ (l.filter (fun v => v != 0)).Nodup := by
  unfold is_valid_group
  rw [beq_iff_eq]
  constructor
  · intro h
    have hs := (l.filter (fun v => v != 0)).dedup_sublist
    rw [← hs.eq_of_length h]
    exact List.nodup_dedup _
  · intro h
    rw [List.dedup_eq_self.mpr h]

/-- Duplicate-freedom of a group's non-zero entries, as a bound on value
multiplicities. -/
theorem nodup_filter_iff_counts (l : List Nat) :
    (l.filter (fun v => v != 0)).Nodup ↔ ∀ w, w ≠ 0 → l.count w ≤ 1 := by
  rw [List.nodup_iff_count_le_one]
  constructor
  · intro h w hw
    have h2 := h w
    rwa [List.count_filter (by simpa using hw)] at h2
  · intro h a
    by_cases ha : a = 0
    · subst ha
      have h0 : (0 : Nat) ∉ l.filter (fun v => v != 0) := by simp
      simp [List.count_eq_zero.mpr h0]
    · rw [List.count_filter (by simpa using ha)]
      exact h a ha

/-! ### Derived views equal the spec's group lists -/

theorem map_range_getD {α : Type _} (l : List α) (d : α) (n : Nat) (h : l.length = n) :
    (List.range n).map (fun k => l.getD k d) = l := by
  apply List.ext_getElem
  · simp [h]
  · intro i h1 h2
    simp only [List.getElem_map, List.getElem_range]
    exact getD_eq_getElem_of_lt _ h2 d

theorem getD_row_eq_rowList {g : Grid} (hw : wellFormed g) {k : Nat} (hk : k < 9) :
    g.getD k [] = rowList g k := by
  simp only [rowList, get_value]
  exact (map_range_getD _ _ _ (row_length_of_wellFormed hw hk)).symm

theorem is_valid_rows_iff {g : Grid} (hw : wellFormed g) :
    is_valid_rows g = true ↔ ∀ k, k < 9 → is_valid_group (rowList g k) = true := by
  unfold is_valid_rows
  rw [List.all_eq_true]
  constructor
  · intro h k hk
    rw [← getD_row_eq_rowList hw hk]
    have hkl : k < g.length := by rw [hw.1]; omega
    rw [getD_eq_getElem_of_lt _ hkl []]
    exact h _ (List.getElem_mem hkl)
  · intro h row hrow
    obtain ⟨i, hi, rfl⟩ := List.getElem_of_mem hrow
    have hi9 : i < 9 := by rw [hw.1] at hi; omega
    have h2 := h i hi9
    rwa [← getD_row_eq_rowList hw hi9, getD_eq_getElem_of_lt _ hi []] at h2

theorem get_columns_eq {g : Grid} (hw : wellFormed g) :
    get_columns g = (List.range 9).map (colList g) := by
  unfold get_columns colList
  apply List.map_congr_left
  intro i _
  apply List.ext_getElem
  · simp [hw.1]
  · intro t h1 h2
    simp only [List.getElem_map, List.getElem_range]
    unfold get_value
    rw [getD_eq_getElem_of_lt _ (by simpa using h1) []]

theorem is_valid_columns_iff {g : Grid} (hw : wellFormed g) :
    is_valid_columns g = true ↔ ∀ k, k < 9 → is_valid_group (colList g k) = true := by
  unfold is_valid_columns
  rw [get_columns_eq hw, List.all_eq_true]
  constructor
  · intro h k hk
    exact h _ (List.mem_map_of_mem _ (List.mem_range.mpr hk))
  · intro h x hx
    obtain ⟨k, hk, rfl⟩ := List.mem_map.mp hx
    exact h k (List.mem_range.mp hk)

theorem get_squares_eq (g : Grid) :
    get_squares g = (List.range 9).map (squareList g) := by
  rfl

theorem is_valid_squares_iff (g : Grid) :
    is_valid_squares g = true ↔ ∀ k, k < 9 → is_valid_group (squareList g k) = true := by
  unfold is_valid_squares
  rw [get_squares_eq, List.all_eq_true]
  constructor
  · intro h k hk
    exact h _ (List.mem_map_of_mem _ (List.mem_range.mpr hk))
  · intro h x hx
    obtain ⟨k, hk, rfl⟩ := List.mem_map.mp hx
    exact h k (List.mem_range.mp hk)

/-- `is_valid` checks exactly the 27 spec groups. -/
theorem is_valid_iff_groups {g : Grid} (hw : wellFormed g) :
    is_valid g = true ↔ ∀ k, k < 9 →
      is_valid_group (rowList g k) = true ∧
      is_valid_group (colList g k) = true ∧
      is_valid_group (squareList g k) = true := by
  unfold is_valid
  simp only [Bool.and_eq_true]
  rw [is_valid_rows_iff hw, is_valid_columns_iff hw, is_valid_squares_iff]
  constructor
  · rintro ⟨⟨hr, hc⟩, hs⟩ k hk
    exact ⟨hr k hk, hc k hk, hs k hk⟩
  · intro h
    exact ⟨⟨fun k hk => (h k hk).1, fun k hk => (h k hk).2.1⟩, fun k hk => (h k hk).2.2⟩

/-- `is_valid` as multiplicity bounds in the 27 spec groups. -/
theorem is_valid_iff_counts {g : Grid} (hw : wellFormed g) :
    is_valid g = true ↔ ∀ k, k < 9 → ∀ w, w ≠ 0 →
      (rowList g k).count w ≤ 1 ∧
      (colList g k).count w ≤ 1 ∧
      (squareList g k).count w ≤ 1 := by
  rw [is_valid_iff_groups hw]
  constructor
  · intro h k hk w hw0
    obtain ⟨h1, h2, h3⟩ := h k hk
    exact ⟨(nodup_filter_iff_counts _).mp ((is_valid_group_iff _).mp h1) w hw0,
      (nodup_filter_iff_counts _).mp ((is_valid_group_iff _).mp h2) w hw0,
      (nodup_filter_iff_counts _).mp ((is_valid_group_iff _).mp h3) w hw0⟩
  · intro h k hk
    exact ⟨(is_valid_group_iff _).mpr ((nodup_filter_iff_counts _).mpr
        (fun w hw0 => (h k hk w hw0).1)),
      (is_valid_group_iff _).mpr ((nodup_filter_iff_counts _).mpr
        (fun w hw0 => (h k hk w hw0).2.1)),
      (is_valid_group_iff _).mpr ((nodup_filter_iff_counts _).mpr
        (fun w hw0 => (h k hk w hw0).2.2))⟩

/-! ### Effect of a single write on the spec group lists -/

theorem length_rowList (g : Grid) (r : Nat) : (rowList g r).length = 9 := by
  simp [rowList]

theorem length_colList (g : Grid) (c : Nat) : (colList g c).length = 9 := by
  simp [colList]

theorem length_squareList (g : Grid) (s : Nat) : (squareList g s).length = 9 := by
  simp [squareList]

theorem rowList_getElem (g : Grid) (r : Nat) {c : Nat} (h : c < 9) :
    (rowList g r).get ⟨c, by rw [length_rowList]; omega⟩ = get_value g r c := by
  simp [rowList]

theorem colList_getElem (g : Grid) (c : Nat) {r : Nat} (h : r < 9) :
    (colList g c).get ⟨r, by rw [length_colList]; omega⟩ = get_value g r c := by
  simp [colList]

theorem squareList_getElem (g : Grid) (s : Nat) {t : Nat} (h : t < 9) :
    (squareList g s).get ⟨t, by rw [length_squareList]; omega⟩ =
      get_value g (sqRow s t) (sqCol s t) := by
  simp [squareList]

theorem sqPos_lt (r c : Nat) (hr : r < 9) (hc : c < 9) : sqPos r c < 9 := by
  unfold sqPos; omega

theorem sqOf_lt (r c : Nat) (hr : r < 9) (hc : c < 9) : sqOf r c < 9 := by
  unfold sqOf; omega

theorem sqRow_sqPos (r c : Nat) (hr : r < 9) (hc : c < 9) :
    sqRow (sqOf r c) (sqPos r c) = r := by
  unfold sqRow sqOf sqPos; omega

theorem sqCol_sqPos (r c : Nat) (hr : r < 9) (hc : c < 9) :
    sqCol (sqOf r c) (sqPos r c) = c := by
  unfold sqCol sqOf sqPos; omega

theorem rowList_set_value {g : Grid} (hw : wellFormed g) {r c : Nat}
    (hr : r < 9) (hc : c < 9) (v : Nat) (i : Nat) :
    rowList (set_value g r c v) i =
      if i = r then (rowList g i).set c v else rowList g i := by
  have hrlen : r < g.length := by rw [hw.1]; omega
  have hclen : c < (g.getD r []).length := by rw [row_length_of_wellFormed hw hr]; omega
  by_cases hir : i = r
  · subst hir
    rw [if_pos rfl]
    apply List.ext_getElem
    · simp [rowList]
    · intro j h1 h2
      have hj9 : j < 9 := by simpa [rowList] using h1
      simp only [rowList, List.getElem_map, List.getElem_range, List.getElem_set]
      rw [get_value_set_value]
      by_cases hjc : j = c
      · subst hjc
        rw [if_pos ⟨rfl, rfl, hrlen, hclen⟩, if_pos rfl]
      · rw [if_neg (fun hcon => hjc hcon.2.1), if_neg (fun hcj => hjc hcj.symm)]
  · rw [if_neg hir]
    unfold rowList
    apply List.map_congr_left
    intro j _
    exact get_value_set_value_ne g v (fun hcon => hir hcon.1)

theorem colList_set_value {g : Grid} (hw : wellFormed g) {r c : Nat}
    (hr : r < 9) (hc : c < 9) (v : Nat) (j : Nat) :
    colList (set_value g r c v) j =
      if j = c then (colList g j).set r v else colList g j := by
  have hrlen : r < g.length := by rw [hw.1]; omega
  have hclen : c < (g.getD r []).length := by rw [row_length_of_wellFormed hw hr]; omega
  by_cases hjc : j = c
  · subst hjc
    rw [if_pos rfl]
    apply List.ext_getElem
    · simp [colList]
    · intro i h1 h2
      have hi9 : i < 9 := by simpa [colList] using h1
      simp only [colList, List.getElem_map, List.getElem_range, List.getElem_set]
      rw [get_value_set_value]
      by_cases hir : i = r
      · subst hir
        rw [if_pos ⟨rfl, rfl, hrlen, hclen⟩, if_pos rfl]
      · rw [if_neg (fun hcon => hir hcon.1), if_neg (fun hri => hir hri.symm)]
  · rw [if_neg hjc]
    unfold colList
    apply List.map_congr_left
    intro i _
    exact get_value_set_value_ne g v (fun hcon => hjc hcon.2)

theorem squareList_set_value {g : Grid} (hw : wellFormed g) {r c : Nat}
    (hr : r < 9) (hc : c < 9) (v : Nat) {s : Nat} (hs : s < 9) :
    squareList (set_value g r c v) s =
      if s = sqOf r c then (squareList g s).set (sqPos r c) v else squareList g s := by
  have hrlen : r < g.length := by rw [hw.1]; omega
  have hclen : c < (g.getD r []).length := by rw [row_length_of_wellFormed hw hr]; omega
  by_cases hss : s = sqOf r c
  · subst hss
    rw [if_pos rfl]
    apply List.ext_getElem
    · simp [squareList]
    · intro t h1 h2
      have ht9 : t < 9 := by simpa [squareList] using h1
      simp only [squareList, List.getElem_map, List.getElem_range, List.getElem_set]
      rw [get_value_set_value]
      by_cases htp : t = sqPos r c
      · subst htp
        rw [sqRow_sqPos r c hr hc, sqCol_sqPos r c hr hc,
          if_pos ⟨rfl, rfl, hrlen, hclen⟩, if_pos rfl]
      · have hne : ¬(sqRow (sqOf r c) t = r ∧ sqCol (sqOf r c) t = c) := by
          unfold sqRow sqCol sqOf sqPos at *
          omega
        rw [if_neg (fun hcon => hne ⟨hcon.1, hcon.2.1⟩),
          if_neg (fun hpt => htp hpt.symm)]
  · rw [if_neg hss]
    unfold squareList
    apply List.map_congr_left
    intro t ht
    have ht9 : t < 9 := List.mem_range.mp ht
    apply get_value_set_value_ne
    intro hcon
    apply hss
    unfold sqRow sqCol sqOf at *
    omega

/-! ### The candidate probe `valid_values` -/

/-- Invariant of the probe loop: starting from any state that differs
from `g` only at cell `(r, c)`, the accumulated candidate list is the
filter of the probed values by validity of the probe, and the final
state still differs from `g` only at cell `(r, c)`. -/
theorem valid_values_fold (g : Grid) (r c : Nat) :
    ∀ (vs : List Nat) (acc : List Nat) (g0 : Grid),
      (∀ w, set_value g0 r c w = set_value g r c w) →
      ((vs.foldl (fun (acc : List Nat × Grid) value =>
          (if is_valid (set_value acc.2 r c value) then acc.1 ++ [value] else acc.1,
            set_value acc.2 r c value)) (acc, g0)).1 =
        acc ++ vs.filter (fun v => is_valid (set_value g r c v))) ∧
      (∀ w, set_value ((vs.foldl (fun (acc : List Nat × Grid) value =>
          (if is_valid (set_value acc.2 r c value) then acc.1 ++ [value] else acc.1,
            set_value acc.2 r c value)) (acc, g0)).2) r c w = set_value g r c w)
  | [], acc, g0, hinv => ⟨by simp, hinv⟩
  | v :: vs, acc, g0, hinv => by
    simp only [List.foldl_cons, List.filter_cons]
    rw [hinv v]
    have hnext := valid_values_fold g r c vs
      (if is_valid (set_value g r c v) then acc ++ [v] else acc)
      (set_value g r c v) (fun w => set_value_set_value g r c v w)
    refine ⟨hnext.1.trans ?_, hnext.2⟩
    by_cases hp : is_valid (set_value g r c v) = true
    · simp [hp]
    · simp [hp]

/-- The candidate list returned by `valid_values`: the digits 1..9 whose
placement at the cell leaves the whole board valid, in probe order. -/
theorem valid_values_fst (g : Grid) (r c : Nat) :
    (valid_values g r c).1 =
      (List.range' 1 9).filter (fun v => is_valid (set_value g r c v)) := by
  simp only [valid_values]
  have h := (valid_values_fold g r c (List.range' 1 9) [] g (fun _ => rfl)).1
  rw [h]
  simp

/-- `valid_values` restores the board exactly: no net mutation. -/
theorem valid_values_snd (g : Grid) (r c : Nat) :
    (valid_values g r c).2 = g := by
  simp only [valid_values]
  have h := (valid_values_fold g r c (List.range' 1 9) [] g (fun _ => rfl)).2
  rw [h (get_value g r c)]
  exact set_value_get_value_self g r c

/-- Membership in the candidate list. -/
theorem mem_valid_values (g : Grid) (r c v : Nat) :
    v ∈ (valid_values g r c).1 ↔
      1 ≤ v ∧ v ≤ 9 ∧ is_valid (set_value g r c v) = true := by
  rw [valid_values_fst, List.mem_filter, List.mem_range'_1]
  constructor
  · rintro ⟨⟨h1, h2⟩, h3⟩
    exact ⟨h1, by omega, h3⟩
  · rintro ⟨h1, h2, h3⟩
    exact ⟨⟨h1, by omega⟩, h3⟩

theorem pairwise_range'_lt : (List.range' 1 9).Pairwise (· < ·) := by
  decide

theorem ascendingOK_of_pairwise :
    ∀ {l : List Nat}, l.Pairwise (· < ·) → ascendingOK l = true
  | [], _ => rfl
  | [_], _ => rfl
  | a :: b :: rest, h => by
    have h1 : a < b := List.rel_of_pairwise_cons h (List.mem_cons_self b rest)
    have h2 := ascendingOK_of_pairwise h.of_cons
    rw [ascendingOK]
    simp [h1, h2]

/-- Candidates are produced in strictly ascending order. -/
theorem valid_values_ascending (g : Grid) (r c : Nat) :
    ascendingOK (valid_values g r c).1 = true := by
  rw [valid_values_fst]
  exact ascendingOK_of_pairwise (List.Pairwise.filter _ pairwise_range'_lt)

/-- Candidates are digits in `[1, 9]`. -/
theorem valid_values_digits (g : Grid) (r c : Nat) :
    digitsOK (valid_values g r c).1 = true := by
  unfold digitsOK
  rw [List.all_eq_true]
  intro v hv
  have h := (mem_valid_values g r c v).mp hv
  simp only [Bool.and_eq_true, decide_eq_true_eq]
  omega

/-- The candidate list has at most 9 entries. -/
theorem valid_values_length_le (g : Grid) (r c : Nat) :
    (valid_values g r c).1.length ≤ 9 := by
  rw [valid_values_fst]
  have h := List.length_filter_le (fun v => is_valid (set_value g r c v)) (List.range' 1 9)
  simpa using h

/-! ### The backtracking solver -/

theorem findFirstZero_spec {g : Grid} {r c : Nat}
    (h : findFirstZero g = some (r, c)) :
    r < 9 ∧ c < 9 ∧ get_value g r c = 0 := by
  unfold findFirstZero at h
  have h1 := List.find?_some h
  have h2 := List.mem_of_find?_eq_some h
  simp only [beq_iff_eq] at h1
  simp only [allPositions, List.mem_flatMap, List.mem_map, List.mem_range] at h2
  obtain ⟨a, ha, b, hb, heq⟩ := h2
  injection heq with e1 e2
  subst e1; subst e2
  exact ⟨ha, hb, h1⟩

/-- Unfolding equation for `solveFuel` at positive fuel. -/
theorem solveFuel_succ (n : Nat) (g : Grid) :
    solveFuel (n + 1) g =
      if is_finished g then (g, true)
      else
        match findFirstZero g with
        | none => (g, false)
        | some (r, c) =>
          goVals (solveFuel n) r c (valid_values g r c).2 (valid_values g r c).1 := rfl

/-- If the candidate loop fails, it hands the board back exactly as it
received it: each tentative write is undone. -/
theorem goVals_restore {recur : Grid → Grid × Bool} {r c : Nat}
    (hrec : ∀ g1, (recur g1).2 = false → (recur g1).1 = g1) :
    ∀ (vs : List Nat) (g : Grid), get_value g r c = 0 →
      (goVals recur r c g vs).2 = false → (goVals recur r c g vs).1 = g := by
  intro vs
  induction vs with
  | nil => intro g _ _; rfl
  | cons v vs ih =>
    intro g h0 hfail
    rcases hres : recur (set_value g r c v) with ⟨g2, b⟩
    cases b
    · have hg2 : g2 = set_value g r c v := by
        have h2 := hrec (set_value g r c v) (by rw [hres])
        rwa [hres] at h2
      simp only [goVals, hres] at hfail ⊢
      rw [if_neg (by simp)] at hfail ⊢
      rw [hg2, set_value_set_value] at hfail ⊢
      conv at hfail => rw [← h0, set_value_get_value_self]
      conv => lhs; rw [← h0, set_value_get_value_self]
      exact ih g h0 hfail
    · simp only [goVals, hres] at hfail
      rw [if_pos trivial] at hfail
      cases hfail

/-- If the candidate loop succeeds, the propagated board is finished,
provided the recursive call guarantees this. -/
theorem goVals_finished {recur : Grid → Grid × Bool} {r c : Nat}
    (hrec : ∀ g1, (recur g1).2 = true → is_finished (recur g1).1 = true) :
    ∀ (vs : List Nat) (g : Grid),
      (goVals recur r c g vs).2 = true →
      is_finished (goVals recur r c g vs).1 = true := by
  intro vs
  induction vs with
  | nil => intro g h; cases h
  | cons v vs ih =>
    intro g hsucc
    rcases hres : recur (set_value g r c v) with ⟨g2, b⟩
    cases b
    · simp only [goVals, hres] at hsucc ⊢
      rw [if_neg (by simp)] at hsucc ⊢
      exact ih _ hsucc
    · simp only [goVals, hres] at hsucc ⊢
      rw [if_pos trivial]
      have h2 := hrec (set_value g r c v) (by rw [hres])
      rwa [hres] at h2

/-- A write into an empty cell preserves all non-zero cells. -/
theorem preserve_step {g : Grid} {r c : Nat} (h0 : get_value g r c = 0) (v : Nat) :
    ∀ a b, a < 9 → b < 9 → get_value g a b ≠ 0 →
      get_value (set_value g r c v) a b = get_value g a b := by
  intro a b _ _ hne
  apply get_value_set_value_ne
  rintro ⟨rfl, rfl⟩
  exact hne h0

/-- If the candidate loop succeeds, every cell that was non-zero on
entry is unchanged in the propagated board. -/
theorem goVals_preserve {recur : Grid → Grid × Bool} {r c : Nat}
    (hrecF : ∀ g1, (recur g1).2 = false → (recur g1).1 = g1)
    (hrecT : ∀ g1, (recur g1).2 = true → ∀ a b, a < 9 → b < 9 →
      get_value g1 a b ≠ 0 → get_value (recur g1).1 a b = get_value g1 a b) :
    ∀ (vs : List Nat) (g : Grid), get_value g r c = 0 →
      (goVals recur r c g vs).2 = true →
      ∀ a b, a < 9 → b < 9 → get_value g a b ≠ 0 →
        get_value (goVals recur r c g vs).1 a b = get_value g a b := by
  intro vs
  induction vs with
  | nil => intro g _ hsucc; cases hsucc
  | cons v vs ih =>
    intro g h0 hsucc a b ha hb hne
    rcases hres : recur (set_value g r c v) with ⟨g2, bb⟩
    cases bb
    · have hg2 : g2 = set_value g r c v := by
        have h2 := hrecF (set_value g r c v) (by rw [hres])
        rwa [hres] at h2
      simp only [goVals, hres] at hsucc ⊢
      rw [if_neg (by simp)] at hsucc ⊢
      rw [hg2, set_value_set_value] at hsucc ⊢
      conv at hsucc => rw [← h0, set_value_get_value_self]
      conv => lhs; rw [← h0, set_value_get_value_self]
      exact ih g h0 hsucc a b ha hb hne
    · simp only [goVals, hres] at hsucc ⊢
      rw [if_pos trivial]
      have hstep := preserve_step h0 v a b ha hb hne
      have hT := hrecT (set_value g r c v) (by rw [hres]) a b ha hb
        (by rw [hstep]; exact hne)
      rw [hres] at hT
      rw [hT, hstep]

/-- If `solveFuel` fails, the board is returned exactly as received. -/
theorem solveFuel_restore : ∀ (n : Nat) (g : Grid),
    (solveFuel n g).2 = false → (solveFuel n g).1 = g := by
  intro n
  induction n with
  | zero => intro g _; rfl
  | succ n ih =>
    intro g hfail
    rw [solveFuel_succ] at hfail ⊢
    by_cases hfin : is_finished g = true
    · simp [hfin] at hfail
    · simp only [Bool.not_eq_true] at hfin
      simp only [hfin, Bool.false_eq_true, if_false] at hfail ⊢
      cases hz : findFirstZero g with
      | none => simp [hz]
      | some rc =>
        obtain ⟨r, c⟩ := rc
        obtain ⟨hr, hc, h0⟩ := findFirstZero_spec hz
        simp only [hz] at hfail ⊢
        rw [valid_values_snd] at hfail ⊢
        exact goVals_restore ih _ _ h0 hfail

/-- If `solveFuel` succeeds, the returned board is finished. -/
theorem solveFuel_finished : ∀ (n : Nat) (g : Grid),
    (solveFuel n g).2 = true → is_finished (solveFuel n g).1 = true := by
  intro n
  induction n with
  | zero => intro g h; cases h
  | succ n ih =>
    intro g hsucc
    rw [solveFuel_succ] at hsucc ⊢
    by_cases hfin : is_finished g = true
    · simp [hfin]
    · simp only [Bool.not_eq_true] at hfin
      simp only [hfin, Bool.false_eq_true, if_false] at hsucc ⊢
      cases hz : findFirstZero g with
      | none => rw [hz] at hsucc; cases hsucc
      | some rc =>
        obtain ⟨r, c⟩ := rc
        simp only [hz] at hsucc ⊢
        exact goVals_finished ih _ _ hsucc

/-- If `solveFuel` succeeds, every originally non-zero cell holds its
original digit in the returned board. -/
theorem solveFuel_preserve : ∀ (n : Nat) (g : Grid),
    (solveFuel n g).2 = true → ∀ a b, a < 9 → b < 9 → get_value g a b ≠ 0 →
      get_value (solveFuel n g).1 a b = get_value g a b := by
  intro n
  induction n with
  | zero => intro g h; cases h
  | succ n ih =>
    intro g hsucc a b ha hb hne
    rw [solveFuel_succ] at hsucc ⊢
    by_cases hfin : is_finished g = true
    · simp [hfin]
    · simp only [Bool.not_eq_true] at hfin
      simp only [hfin, Bool.false_eq_true, if_false] at hsucc ⊢
      cases hz : findFirstZero g with
      | none => rw [hz] at hsucc
      | some rc =>
        obtain ⟨r, c⟩ := rc
        obtain ⟨hr, hc, h0⟩ := findFirstZero_spec hz
        simp only [hz] at hsucc ⊢
        rw [valid_values_snd] at hsucc ⊢
        exact goVals_preserve (solveFuel_restore n) ih _ _ h0 hsucc a b ha hb hne

/-! ### Counting occurrences under a single write -/

theorem count_set_self_of_not_mem_eraseIdx {l : List Nat} {c : Nat} (hc : c < l.length)
    {v : Nat} (hnm : v ∉ l.eraseIdx c) : (l.set c v).count v = 1 := by
  rw [List.set_eq_take_append_cons_drop, if_pos hc]
  rw [List.eraseIdx_eq_take_drop_succ] at hnm
  simp only [List.mem_append, not_or] at hnm
  rw [List.count_append, List.count_cons]
  simp [List.count_eq_zero.mpr hnm.1, List.count_eq_zero.mpr hnm.2]

theorem two_le_count_set_of_mem_eraseIdx {l : List Nat} {c : Nat} (hc : c < l.length)
    {v : Nat} (hm : v ∈ l.eraseIdx c) : 2 ≤ (l.set c v).count v := by
  rw [List.set_eq_take_append_cons_drop, if_pos hc]
  rw [List.eraseIdx_eq_take_drop_succ] at hm
  rw [List.count_append, List.count_cons]
  rcases List.mem_append.mp hm with h | h
  · have hp := List.count_pos_iff.mpr h
    simp only [beq_self_eq_true, if_true]
    omega
  · have hp := List.count_pos_iff.mpr h
    simp only [beq_self_eq_true, if_true]
    omega

theorem count_set_le_of_ne {l : List Nat} {c : Nat} (hc : c < l.length)
    {v w : Nat} (hne : v ≠ w) : (l.set c v).count w ≤ l.count w := by
  rw [List.count_set v w l c hc]
  have hb : (v == w) = false := by simp [hne]
  rw [hb]
  simp only [Bool.false_eq_true, if_false]
  split <;> omega

theorem count_le_count_set_of_zero {l : List Nat} {c : Nat} (hc : c < l.length)
    (hzero : l[c] = 0) {w : Nat} (hw0 : w ≠ 0) (v : Nat) :
    l.count w ≤ (l.set c v).count w := by
  rw [List.count_set v w l c hc]
  have hb : (l[c] == w) = false := by simp [hzero]; omega
  rw [hb]
  simp only [Bool.false_eq_true, if_false]
  split <;> omega

/-! ### The number of empty cells -/

theorem allPositions_nodup : allPositions.Nodup := by decide

theorem mem_allPositions {r c : Nat} (hr : r < 9) (hc : c < 9) :
    (r, c) ∈ allPositions := by
  simp only [allPositions, List.mem_flatMap, List.mem_map, List.mem_range]
  exact ⟨r, hr, c, hc, rfl⟩

theorem numZeros_le (g : Grid) : numZeros g ≤ 81 := by
  unfold numZeros
  have h := List.count_le_length 0 (allPositions.map (fun p => get_value g p.1 p.2))
  simpa using h

theorem numZeros_pos {g : Grid} {r c : Nat} (hr : r < 9) (hc : c < 9)
    (h0 : get_value g r c = 0) : 1 ≤ numZeros g := by
  unfold numZeros
  have hmem : (0 : Nat) ∈ allPositions.map (fun p => get_value g p.1 p.2) := by
    rw [List.mem_map]
    exact ⟨(r, c), mem_allPositions hr hc, h0⟩
  exact List.count_pos_iff.mpr hmem

/-- Writing a non-zero digit into an empty in-range cell removes exactly
one empty cell. -/
theorem numZeros_set_value {g : Grid} (hw : wellFormed g) {r c : Nat}
    (hr : r < 9) (hc : c < 9) (h0 : get_value g r c = 0) {v : Nat} (hv : v ≠ 0) :
    numZeros (set_value g r c v) + 1 = numZeros g := by
  unfold numZeros
  obtain ⟨l1, l2, hsplit⟩ := List.append_of_mem (mem_allPositions hr hc)
  have hnd : (l1 ++ (r, c) :: l2).Nodup := hsplit ▸ allPositions_nodup
  have hne1 : ∀ p ∈ l1, p ≠ (r, c) := by
    intro p hp heq
    subst heq
    exact (List.disjoint_of_nodup_append hnd) hp (List.mem_cons_self _ _)
  have hne2 : ∀ p ∈ l2, p ≠ (r, c) := by
    intro p hp heq
    subst heq
    exact ((List.nodup_cons.mp (List.Nodup.of_append_right hnd)).1) hp
  have hcongr : ∀ (L : List (Nat × Nat)), (∀ p ∈ L, p ≠ (r, c)) →
      L.map (fun p => get_value (set_value g r c v) p.1 p.2) =
        L.map (fun p => get_value g p.1 p.2) := by
    intro L hL
    apply List.map_congr_left
    intro p hp
    apply get_value_set_value_ne
    rintro ⟨h1, h2⟩
    exact hL p hp (by rw [← h1, ← h2])
  have hself : get_value (set_value g r c v) r c = v :=
    get_value_set_value_self hw hr hc v
  rw [hsplit]
  simp only [List.map_append, List.map_cons, List.count_append, List.count_cons]
  rw [hcongr l1 hne1, hcongr l2 hne2, hself, h0]
  have hv' : (v == (0 : Nat)) = false := by simp [hv]
  rw [hv']
  simp
  omega

/-! ### Fuel irrelevance: the recursion is well-founded on empty cells -/

theorem goVals_congr {recur1 recur2 : Grid → Grid × Bool} {r c : Nat}
    (hrec1 : ∀ g1, (recur1 g1).2 = false → (recur1 g1).1 = g1)
    {g : Grid} (h0 : get_value g r c = 0) :
    ∀ (vs : List Nat),
      (∀ v ∈ vs, recur1 (set_value g r c v) = recur2 (set_value g r c v)) →
      goVals recur1 r c g vs = goVals recur2 r c g vs := by
  intro vs
  induction vs with
  | nil => intro _; rfl
  | cons v vs ih =>
    intro hvv
    have heq := hvv v (List.mem_cons_self v vs)
    rcases hres : recur1 (set_value g r c v) with ⟨g2, b⟩
    have hres2 : recur2 (set_value g r c v) = (g2, b) := by rw [← heq, hres]
    cases b
    · have hg2 : g2 = set_value g r c v := by
        have h2 := hrec1 (set_value g r c v) (by rw [hres])
        rwa [hres] at h2
      simp only [goVals, hres, hres2]
      rw [if_neg (by simp), if_neg (by simp)]
      rw [hg2, set_value_set_value]
      conv => lhs; rw [← h0, set_value_get_value_self]
      conv => rhs; rw [← h0, set_value_get_value_self]
      exact ih (fun w hw => hvv w (List.mem_cons_of_mem v hw))
    · simp [goVals, hres, hres2]

/-- `solveFuel` does not depend on the fuel once the fuel reaches the
number of empty cells: the recursion is well-founded on that number. -/
theorem solveFuel_congr : ∀ (z : Nat) (g : Grid), wellFormed g → numZeros g ≤ z →
    ∀ n m, numZeros g ≤ n → numZeros g ≤ m →
      solveFuel (n + 1) g = solveFuel (m + 1) g := by
  intro z
  induction z with
  | zero =>
    intro g hw hz n m hn hm
    rw [solveFuel_succ, solveFuel_succ]
    by_cases hfin : is_finished g = true
    · simp [hfin]
    · simp only [Bool.not_eq_true] at hfin
      simp only [hfin, Bool.false_eq_true, if_false]
      cases hz2 : findFirstZero g with
      | none => rfl
      | some rc =>
        obtain ⟨r, c⟩ := rc
        obtain ⟨hr, hc, h0⟩ := findFirstZero_spec hz2
        have hp := numZeros_pos hr hc h0
        omega
  | succ z ih =>
    intro g hw hz n m hn hm
    rw [solveFuel_succ, solveFuel_succ]
    by_cases hfin : is_finished g = true
    · simp [hfin]
    · simp only [Bool.not_eq_true] at hfin
      simp only [hfin, Bool.false_eq_true, if_false]
      cases hz2 : findFirstZero g with
      | none => rfl
      | some rc =>
        obtain ⟨r, c⟩ := rc
        obtain ⟨hr, hc, h0⟩ := findFirstZero_spec hz2
        simp only [hz2]
        rw [valid_values_snd]
        apply goVals_congr (solveFuel_restore n) h0
        intro v hv
        obtain ⟨hv1, hv9, _⟩ := (mem_valid_values g r c v).mp hv
        have hwf2 := wellFormed_set_value hw r c hv9
        have hdec := numZeros_set_value hw hr hc h0 (show v ≠ 0 by omega)
        have hp := numZeros_pos hr hc h0
        obtain ⟨n1, rfl⟩ : ∃ n1, n = n1 + 1 := ⟨n - 1, by omega⟩
        obtain ⟨m1, rfl⟩ : ∃ m1, m = m1 + 1 := ⟨m - 1, by omega⟩
        exact ih (set_value g r c v) hwf2 (by omega) n1 m1 (by omega) (by omega)

/-- Any fuel of at least 82 computes `solve`. -/
theorem solveFuel_eq_solve {g : Grid} (hw : wellFormed g) {n : Nat} (hn : 81 ≤ n) :
    solveFuel (n + 1) g = solve g := by
  unfold solve
  exact solveFuel_congr (numZeros g) g hw le_rfl n (numZeros g)
    (le_trans (numZeros_le g) hn) le_rfl

/-! ### Invalid boards remain invalid under probes -/

/-- Filling an empty cell of an invalid board cannot repair the board:
the offending duplicate is among the other, unchanged cells. -/
theorem is_valid_set_of_invalid {g : Grid} (hw : wellFormed g) {r c : Nat}
    (hr : r < 9) (hc : c < 9) (h0 : get_value g r c = 0)
    (hinv : is_valid g = false) {v : Nat} (hv : v ≤ 9) :
    is_valid (set_value g r c v) = false := by
  by_contra hcon
  rw [Bool.not_eq_false] at hcon
  have hwf2 := wellFormed_set_value hw r c hv
  have hcounts := (is_valid_iff_counts hwf2).mp hcon
  have hvalid : is_valid g = true := by
    rw [is_valid_iff_counts hw]
    intro k hk w hw0
    obtain ⟨h1, h2, h3⟩ := hcounts k hk w hw0
    refine ⟨?_, ?_, ?_⟩
    · rw [rowList_set_value hw hr hc v k] at h1
      by_cases hkr : k = r
      · rw [if_pos hkr] at h1
        have hcl : c < (rowList g k).length := by rw [length_rowList]; omega
        have hz' : (rowList g k).get ⟨c, hcl⟩ = 0 := by
          rw [rowList_getElem g k hc, hkr]
          exact h0
        rw [List.get_eq_getElem] at hz'
        exact le_trans (count_le_count_set_of_zero hcl hz' hw0 v) h1
      · rwa [if_neg hkr] at h1
    · rw [colList_set_value hw hr hc v k] at h2
      by_cases hkc : k = c
      · rw [if_pos hkc] at h2
        have hrl : r < (colList g k).length := by rw [length_colList]; omega
        have hz' : (colList g k).get ⟨r, hrl⟩ = 0 := by
          rw [colList_getElem g k hr, hkc]
          exact h0
        rw [List.get_eq_getElem] at hz'
        exact le_trans (count_le_count_set_of_zero hrl hz' hw0 v) h2
      · rwa [if_neg hkc] at h2
    · rw [squareList_set_value hw hr hc v hk] at h3
      by_cases hks : k = sqOf r c
      · rw [if_pos hks] at h3
        have hpl : sqPos r c < (squareList g k).length := by
          rw [length_squareList]; exact sqPos_lt r c hr hc
        have hz' : (squareList g k).get ⟨sqPos r c, hpl⟩ = 0 := by
          rw [squareList_getElem g k (sqPos_lt r c hr hc), hks,
            sqRow_sqPos r c hr hc, sqCol_sqPos r c hr hc]
          exact h0
        rw [List.get_eq_getElem] at hz'
        exact le_trans (count_le_count_set_of_zero hpl hz' hw0 v) h3
      · rwa [if_neg hks] at h3
  rw [hvalid] at hinv
  cases hinv

/-- On an invalid board, the solver's candidate probe finds nothing. -/
theorem valid_values_nil_of_invalid {g : Grid} (hw : wellFormed g)
    {r c : Nat} (hr : r < 9) (hc : c < 9) (h0 : get_value g r c = 0)
    (hinv : is_valid g = false) : (valid_values g r c).1 = [] := by
  rw [valid_values_fst, List.filter_eq_nil_iff]
  intro v hv
  have hv9 : v ≤ 9 := by
    have hm := List.mem_range'_1.mp hv
    omega
  simp only [Bool.not_eq_true]
  exact is_valid_set_of_invalid hw hr hc h0 hinv hv9

/-! ### Clue preservation, Bool and Prop forms -/

theorem cluesPreserved_iff (g g1 : Grid) :
    cluesPreserved g g1 = true ↔
      ∀ a b, a < 9 → b < 9 → get_value g a b ≠ 0 →
        get_value g1 a b = get_value g a b := by
  unfold cluesPreserved
  simp only [List.all_eq_true, List.mem_range, Bool.or_eq_true, beq_iff_eq]
  constructor
  · intro h a b ha hb hne
    rcases h a ha b hb with h0 | he
    · exact absurd h0 hne
    · exact he
  · intro h a ha b hb
    by_cases h0 : get_value g a b = 0
    · exact Or.inl h0
    · exact Or.inr (h a b ha hb h0)

/-! ### Candidate membership versus duplicate creation -/

theorem contains_eq_false_iff (l : List Nat) (x : Nat) :
    l.contains x = false ↔ x ∉ l := by
  rw [← Bool.not_eq_true]
  exact not_congr List.elem_iff

theorem createsDuplicate_eq_false_iff (g : Grid) (r c v : Nat) :
    createsDuplicate g r c v = false ↔
      v ∉ (rowList g r).eraseIdx c ∧ v ∉ (colList g c).eraseIdx r ∧
      v ∉ (squareList g (sqOf r c)).eraseIdx (sqPos r c) := by
  unfold createsDuplicate
  rw [Bool.or_eq_false_iff, Bool.or_eq_false_iff]
  rw [contains_eq_false_iff, contains_eq_false_iff, contains_eq_false_iff]
  tauto

/-- On a valid board, probing digit `v` at cell `(r, c)` keeps the board
valid exactly when `v` does not already occur elsewhere in the cell's
row, column, or block. -/
theorem is_valid_set_iff_no_duplicate {g : Grid} (hw : wellFormed g)
    (hval : is_valid g = true) {r c : Nat} (hr : r < 9) (hc : c < 9)
    {v : Nat} (hv1 : 1 ≤ v) (hv9 : v ≤ 9) :
    is_valid (set_value g r c v) = true ↔ createsDuplicate g r c v = false := by
  have hwf2 := wellFormed_set_value hw r c hv9
  have hvc := (is_valid_iff_counts hw).mp hval
  have hcl : c < (rowList g r).length := by rw [length_rowList]; omega
  have hrl : r < (colList g c).length := by rw [length_colList]; omega
  have hpl : sqPos r c < (squareList g (sqOf r c)).length := by
    rw [length_squareList]; exact sqPos_lt r c hr hc
  rw [is_valid_iff_counts hwf2, createsDuplicate_eq_false_iff]
  constructor
  · intro hcounts
    refine ⟨?_, ?_, ?_⟩
    · intro hmem
      have h2 := two_le_count_set_of_mem_eraseIdx hcl hmem
      have h1 := (hcounts r hr v (by omega)).1
      rw [rowList_set_value hw hr hc v r, if_pos rfl] at h1
      omega
    · intro hmem
      have h2 := two_le_count_set_of_mem_eraseIdx hrl hmem
      have h1 := (hcounts c hc v (by omega)).2.1
      rw [colList_set_value hw hr hc v c, if_pos rfl] at h1
      omega
    · intro hmem
      have h2 := two_le_count_set_of_mem_eraseIdx hpl hmem
      have h1 := (hcounts (sqOf r c) (sqOf_lt r c hr hc) v (by omega)).2.2
      rw [squareList_set_value hw hr hc v (sqOf_lt r c hr hc), if_pos rfl] at h1
      omega
  · rintro ⟨hnr, hnc, hns⟩ k hk w hw0
    refine ⟨?_, ?_, ?_⟩
    · rw [rowList_set_value hw hr hc v k]
      by_cases hkr : k = r
      · rw [if_pos hkr, hkr]
        by_cases hwv : w = v
        · rw [hwv, count_set_self_of_not_mem_eraseIdx hcl hnr]
        · exact le_trans (count_set_le_of_ne hcl (fun h => hwv h.symm))
            ((hvc r hr w hw0).1)
      · rw [if_neg hkr]
        exact (hvc k hk w hw0).1
    · rw [colList_set_value hw hr hc v k]
      by_cases hkc : k = c
      · rw [if_pos hkc, hkc]
        by_cases hwv : w = v
        · rw [hwv, count_set_self_of_not_mem_eraseIdx hrl hnc]
        · exact le_trans (count_set_le_of_ne hrl (fun h => hwv h.symm))
            ((hvc c hc w hw0).2.1)
      · rw [if_neg hkc]
        exact (hvc k hk w hw0).2.1
    · rw [squareList_set_value hw hr hc v hk]
      by_cases hks : k = sqOf r c
      · rw [if_pos hks, hks]
        by_cases hwv : w = v
        · rw [hwv, count_set_self_of_not_mem_eraseIdx hpl hns]
        · exact le_trans (count_set_le_of_ne hpl (fun h => hwv h.symm))
            ((hvc (sqOf r c) (sqOf_lt r c hr hc) w hw0).2.2)
      · rw [if_neg hks]
        exact (hvc k hk w hw0).2.2

/-! ### Read-only query sequences -/

theorem runQuery_state (q : Query) (g : Grid) : (runQuery q g).2 = g := by
  cases q <;> rfl

theorem runQueries_state (qs : List Query) (g : Grid) :
    (runQueries qs g).2 = g := by
  induction qs with
  | nil => rfl
  | cons q qs ih =>
    simp only [runQueries, runQuery_state]
    exact ih

theorem runQueries_append (qs1 qs2 : List Query) (g : Grid) :
    (runQueries (qs1 ++ qs2) g).1 =
      (runQueries qs1 g).1 ++ (runQueries qs2 g).1 := by
  induction qs1 with
  | nil => rfl
  | cons q qs ih =>
    simp only [List.cons_append, runQueries, runQuery_state, List.append_eq]
    rw [ih]

/-! ### Queries are functions of the cell contents -/

theorem sqRow_lt (s t : Nat) (hs : s < 9) (ht : t < 9) : sqRow s t < 9 := by
  unfold sqRow; omega

theorem sqCol_lt (s t : Nat) (hs : s < 9) (ht : t < 9) : sqCol s t < 9 := by
  unfold sqCol; omega

theorem is_valid_congr {g g2 : Grid} (hw : wellFormed g) (hw2 : wellFormed g2)
    (hsame : ∀ a b, a < 9 → b < 9 → get_value g a b = get_value g2 a b) :
    is_valid g = is_valid g2 := by
  rw [Bool.eq_iff_iff, is_valid_iff_groups hw, is_valid_iff_groups hw2]
  have hrow : ∀ k, k < 9 → rowList g k = rowList g2 k := by
    intro k hk
    unfold rowList
    apply List.map_congr_left
    intro c hcm
    exact hsame k c hk (List.mem_range.mp hcm)
  have hcol : ∀ k, k < 9 → colList g k = colList g2 k := by
    intro k hk
    unfold colList
    apply List.map_congr_left
    intro r hrm
    exact hsame r k (List.mem_range.mp hrm) hk
  have hsq : ∀ k, k < 9 → squareList g k = squareList g2 k := by
    intro k hk
    unfold squareList
    apply List.map_congr_left
    intro t htm
    exact hsame _ _ (sqRow_lt k t hk (List.mem_range.mp htm))
      (sqCol_lt k t hk (List.mem_range.mp htm))
  constructor
  · intro h k hk
    obtain ⟨h1, h2, h3⟩ := h k hk
    rw [← hrow k hk, ← hcol k hk, ← hsq k hk]
    exact ⟨h1, h2, h3⟩
  · intro h k hk
    obtain ⟨h1, h2, h3⟩ := h k hk
    rw [hrow k hk, hcol k hk, hsq k hk]
    exact ⟨h1, h2, h3⟩

theorem all_cells_nonzero_iff {g : Grid} (hw : wellFormed g) :
    (g.all (fun row => row.all (fun v => v != 0))) = true ↔
      ∀ a b, a < 9 → b < 9 → get_value g a b ≠ 0 := by
  rw [List.all_eq_true]
  constructor
  · intro h a b ha hb
    have hal : a < g.length := by rw [hw.1]; omega
    have hrow := h _ (List.getElem_mem hal)
    rw [List.all_eq_true] at hrow
    have hbl : b < g[a].length := by rw [hw.2.1 _ (List.getElem_mem hal)]; omega
    have hv := hrow _ (List.getElem_mem hbl)
    unfold get_value
    rw [getD_eq_getElem_of_lt _ hal [], getD_eq_getElem_of_lt _ hbl 0]
    simpa using hv
  · intro h row hrow
    rw [List.all_eq_true]
    intro v hvmem
    obtain ⟨a, hal, rfl⟩ := List.getElem_of_mem hrow
    obtain ⟨b, hbl, rfl⟩ := List.getElem_of_mem hvmem
    have ha9 : a < 9 := by rw [hw.1] at hal; omega
    have hb9 : b < 9 := by
      rw [hw.2.1 _ (List.getElem_mem hal)] at hbl; omega
    have hne := h a b ha9 hb9
    unfold get_value at hne
    rw [getD_eq_getElem_of_lt _ hal [], getD_eq_getElem_of_lt _ hbl 0] at hne
    simpa using hne

theorem is_finished_congr {g g2 : Grid} (hw : wellFormed g) (hw2 : wellFormed g2)
    (hsame : ∀ a b, a < 9 → b < 9 → get_value g a b = get_value g2 a b) :
    is_finished g = is_finished g2 := by
  unfold is_finished
  rw [is_valid_congr hw hw2 hsame]
  have hall : (g.all (fun row => row.all (fun v => v != 0))) =
      (g2.all (fun row => row.all (fun v => v != 0))) := by
    rw [Bool.eq_iff_iff, all_cells_nonzero_iff hw, all_cells_nonzero_iff hw2]
    constructor
    · intro h a b ha hb
      rw [← hsame a b ha hb]
      exact h a b ha hb
    · intro h a b ha hb
      rw [hsame a b ha hb]
      exact h a b ha hb
  rw [hall]

/-! ### The string rendering -/

theorem exists_nine {α : Type _} (l : List α) (hl : l.length = 9) :
    ∃ a b c d e f p q i, l = [a, b, c, d, e, f, p, q, i] := by
  rcases l with _ | ⟨a, l⟩
  · simp only [List.length_nil] at hl; omega
  rcases l with _ | ⟨b, l⟩
  · simp only [List.length_cons, List.length_nil] at hl; omega
  rcases l with _ | ⟨c, l⟩
  · simp only [List.length_cons, List.length_nil] at hl; omega
  rcases l with _ | ⟨d, l⟩
  · simp only [List.length_cons, List.length_nil] at hl; omega
  rcases l with _ | ⟨e, l⟩
  · simp only [List.length_cons, List.length_nil] at hl; omega
  rcases l with _ | ⟨f, l⟩
  · simp only [List.length_cons, List.length_nil] at hl; omega
  rcases l with _ | ⟨p, l⟩
  · simp only [List.length_cons, List.length_nil] at hl; omega
  rcases l with _ | ⟨q, l⟩
  · simp only [List.length_cons, List.length_nil] at hl; omega
  rcases l with _ | ⟨i, l⟩
  · simp only [List.length_cons, List.length_nil] at hl; omega
  rcases l with _ | ⟨x, l⟩
  · exact ⟨a, b, c, d, e, f, p, q, i, rfl⟩
  · simp only [List.length_cons, List.length_nil] at hl
    omega

theorem cellStr_length {v : Nat} (hv : v ≤ 9) : (cellStr v).length = 1 := by
  interval_cases v <;> decide

theorem intercalate_space3 (x y z : String) :
    String.intercalate " " [x, y, z] = x ++ " " ++ y ++ " " ++ z := rfl

theorem intercalate_pipe3 (x y z : String) :
    String.intercalate " | " [x, y, z] = x ++ " | " ++ y ++ " | " ++ z := rfl

theorem formatRow_nine (a b c d e f p q i : Nat) :
    formatRow [a, b, c, d, e, f, p, q, i] = String.intercalate " | "
      [String.intercalate " " [cellStr a, cellStr b, cellStr c],
       String.intercalate " " [cellStr d, cellStr e, cellStr f],
       String.intercalate " " [cellStr p, cellStr q, cellStr i]] := rfl

theorem formatRow_eq_renderRow {g : Grid} (hw : wellFormed g) {r : Nat} (hr : r < 9) :
    formatRow (g.getD r []) = renderRowClaim g r := by
  obtain ⟨a, b, c, d, e, f, p, q, i, hrow⟩ :=
    exists_nine (g.getD r []) (row_length_of_wellFormed hw hr)
  simp only [renderRowClaim, get_value, hrow]
  rfl

theorem formatRow_length {row : List Nat} (h9 : row.length = 9)
    (hv : ∀ v ∈ row, v ≤ 9) : (formatRow row).length = 21 := by
  obtain ⟨a, b, c, d, e, f, p, q, i, rfl⟩ := exists_nine row h9
  have la : (cellStr a).length = 1 := cellStr_length (hv a (by simp))
  have lb : (cellStr b).length = 1 := cellStr_length (hv b (by simp))
  have lc2 : (cellStr c).length = 1 := cellStr_length (hv c (by simp))
  have ld : (cellStr d).length = 1 := cellStr_length (hv d (by simp))
  have le2 : (cellStr e).length = 1 := cellStr_length (hv e (by simp))
  have lf : (cellStr f).length = 1 := cellStr_length (hv f (by simp))
  have lp : (cellStr p).length = 1 := cellStr_length (hv p (by simp))
  have lq : (cellStr q).length = 1 := cellStr_length (hv q (by simp))
  have li : (cellStr i).length = 1 := cellStr_length (hv i (by simp))
  have hsp : (" " : String).length = 1 := rfl
  have hpipe : (" | " : String).length = 3 := rfl
  rw [formatRow_nine, intercalate_space3, intercalate_space3, intercalate_space3,
    intercalate_pipe3]
  simp only [String.length_append, la, lb, lc2, ld, le2, lf, lp, lq, li, hsp, hpipe]

theorem lineLengthsOK_of_wellFormed {g : Grid} (hw : wellFormed g) :
    lineLengthsOK g = true := by
  unfold lineLengthsOK
  rw [List.all_eq_true]
  intro k hk
  have hk9 := List.mem_range.mp hk
  rw [beq_iff_eq]
  apply formatRow_length (row_length_of_wellFormed hw hk9)
  intro v hvm
  have hal : k < g.length := by rw [hw.1]; omega
  rw [getD_eq_getElem_of_lt _ hal []] at hvm
  exact hw.2.2 _ (List.getElem_mem hal) v hvm

theorem boardLines_eq {g : Grid} (hw : wellFormed g) :
    boardLines g =
      [formatRow (g.getD 0 []), formatRow (g.getD 1 []), formatRow (g.getD 2 []),
       dashLine,
       formatRow (g.getD 3 []), formatRow (g.getD 4 []), formatRow (g.getD 5 []),
       dashLine,
       formatRow (g.getD 6 []), formatRow (g.getD 7 []), formatRow (g.getD 8 [])] := by
  obtain ⟨r0, r1, r2, r3, r4, r5, r6, r7, r8, rfl⟩ := exists_nine g hw.1
  simp [boardLines, List.enum, List.enumFrom]

/-! ### Python integer indexing -/

theorem pyIndex_none {len : Nat} {i : Int} (h : i < -(len : Int) ∨ (len : Int) ≤ i) :
    pyIndex len i = none := by
  unfold pyIndex
  rw [if_neg (by omega), if_neg (by omega)]

theorem pyIndex_nonneg {len : Nat} {i : Int} (h0 : 0 ≤ i) (h : i < (len : Int)) :
    pyIndex len i = some i.toNat := by
  unfold pyIndex
  rw [if_pos ⟨h0, h⟩]

theorem pyIndex_neg {len : Nat} {i : Int} (h0 : i < 0) (h : -(len : Int) ≤ i) :
    pyIndex len i = some (i + (len : Int)).toNat := by
  unfold pyIndex
  rw [if_neg (by omega), if_pos ⟨h, h0⟩]

/-- Full description of `get_value`/`set_value` at arbitrary integer
indices under Python list semantics: indices outside `[-9, 8]` raise
(`none`), indices inside are resolved — silently wrapping the negative
ones — and the cell is read or written. -/
theorem get_set_py_spec {g : Grid} (hw : wellFormed g) (r c : Int) (v : Nat) :
    get_value_py g r c = (if r < -9 ∨ 8 < r ∨ c < -9 ∨ 8 < c then none
      else some (get_value g (pyNorm r) (pyNorm c))) ∧
    set_value_py g r c v = (if r < -9 ∨ 8 < r ∨ c < -9 ∨ 8 < c then none
      else some (set_value g (pyNorm r) (pyNorm c) v)) := by
  have hlen : g.length = 9 := hw.1
  by_cases hout : r < -9 ∨ 8 < r ∨ c < -9 ∨ 8 < c
  · rw [if_pos hout, if_pos hout]
    by_cases hrout : r < -9 ∨ 8 < r
    · have h1 : pyIndex g.length r = none := by
        rw [hlen]; exact pyIndex_none (by omega)
      constructor
      · simp only [get_value_py, h1, Option.none_bind]
      · simp only [set_value_py, h1, Option.none_bind]
    · have hcout : c < -9 ∨ 8 < c := by omega
      obtain ⟨ri, hri, hri9⟩ : ∃ ri, pyIndex g.length r = some ri ∧ ri < 9 := by
        rw [hlen]
        rcases lt_or_ge r 0 with h | h
        · exact ⟨(r + 9).toNat, pyIndex_neg h (by omega), by omega⟩
        · exact ⟨r.toNat, pyIndex_nonneg h (by omega), by omega⟩
      have hrl := row_length_of_wellFormed hw hri9
      have h2 : pyIndex (g.getD ri []).length c = none := by
        rw [hrl]; exact pyIndex_none (by omega)
      constructor
      · simp only [get_value_py, hri, Option.some_bind, h2, Option.map_none']
      · simp only [set_value_py, hri, Option.some_bind, h2, Option.map_none']
  · push_neg at hout
    obtain ⟨h1, h2, h3, h4⟩ := hout
    rw [if_neg (by omega), if_neg (by omega)]
    obtain ⟨ri, hri, hri9, hrin⟩ :
        ∃ ri, pyIndex g.length r = some ri ∧ ri < 9 ∧ ri = pyNorm r := by
      rw [hlen]
      rcases lt_or_ge r 0 with h | h
      · exact ⟨(r + 9).toNat, pyIndex_neg h (by omega), by omega,
          by unfold pyNorm; rw [if_pos h]⟩
      · exact ⟨r.toNat, pyIndex_nonneg h (by omega), by omega,
          by unfold pyNorm; rw [if_neg (by omega)]⟩
    have hrl := row_length_of_wellFormed hw hri9
    obtain ⟨ci, hci, hcin⟩ :
        ∃ ci, pyIndex (g.getD ri []).length c = some ci ∧ ci = pyNorm c := by
      rw [hrl]
      rcases lt_or_ge c 0 with h | h
      · exact ⟨(c + 9).toNat, pyIndex_neg h (by omega),
          by unfold pyNorm; rw [if_pos h]⟩
      · exact ⟨c.toNat, pyIndex_nonneg h (by omega),
          by unfold pyNorm; rw [if_neg (by omega)]⟩
    constructor
    · simp only [get_value_py, hri, Option.some_bind, hci, Option.map_some']
      rw [hrin, hcin]
      rfl
    · simp only [set_value_py, hri, Option.some_bind, hci, Option.map_some']
      rw [hrin, hcin]
      rfl

/-! ### Claim theorems -/

/-- C1: for every board that passes the construction (`InvalidShape`)
and initial-validity (`InvalidPuzzle`) checks, if `solve` succeeds
(returns the board rather than `None`), the returned board satisfies
`is_finished` — all 81 cells non-zero and `is_valid` — and every cell
that was non-zero in the input holds the same digit in the result: the
solver never overwrites given clues. -/
theorem C1_solve_success_finished_and_clues (g : Grid)
    (hshape : wellFormed g) (hpuzzle : is_valid g = true)
    (hsucc : (solve g).2 = true) :
    is_finished (solve g).1 = true ∧ cluesPreserved g (solve g).1 = true := by
  constructor
  · exact solveFuel_finished _ g hsucc
  · exact (cluesPreserved_iff g (solve g).1).mpr (solveFuel_preserve _ g hsucc)

/-- Witness for C1: a complete valid grid with one cell cleared is
solved, finished, and its clues are preserved. -/
theorem C1_witness :
    is_finished (solve boardC1w).1 = true ∧
      cluesPreserved boardC1w (solve boardC1w).1 = true :=
  C1_solve_success_finished_and_clues boardC1w (by decide) (by decide) (by decide)

/-- C2 counterexample: the claim quantifies over every board, but on a
board whose only duplicate sits in row 0 (two 5s), placing the digit 1
at the far cell (8, 8) creates no duplicate in that cell's row, column,
or block — yet `valid_values` does not return 1, because its probe
checks whole-board validity and the pre-existing duplicate fails every
probe. -/
theorem C2_counterexample :
    createsDuplicate boardC2cex 8 8 1 = false ∧
      (valid_values boardC2cex 8 8).1.contains 1 = false := by
  decide

/-- C2 (amended): for every board that additionally passes the
initial-validity check (`is_valid` true) and every cell `(r, c)` with
`r, c` in `[0, 8]`, `valid_candidates` returns a digit `v` in `[1, 9]`
if and only if placing `v` at `(r, c)` creates no duplicate non-zero
digit in the cell's row, column, or 3x3 block. -/
theorem C2_amended_candidates_iff_no_duplicate (g : Grid)
    (hshape : wellFormed g) (hvalid : is_valid g = true)
    (r c v : Nat) (hr : r < 9) (hc : c < 9) (hv1 : 1 ≤ v) (hv9 : v ≤ 9) :
    ((valid_values g r c).1.contains v = true ↔
      createsDuplicate g r c v = false) := by
  have hmem : (valid_values g r c).1.contains v = true ↔
      v ∈ (valid_values g r c).1 := List.elem_iff
  rw [hmem, mem_valid_values]
  constructor
  · rintro ⟨_, _, hval2⟩
    exact (is_valid_set_iff_no_duplicate hshape hvalid hr hc hv1 hv9).mp hval2
  · intro hdup
    exact ⟨hv1, hv9,
      (is_valid_set_iff_no_duplicate hshape hvalid hr hc hv1 hv9).mpr hdup⟩

/-- Witness for the amended C2 at a concrete valid board, cell (0, 1)
and digit 5 (which duplicates the clue at (0, 0)). -/
theorem C2_witness :
    ((valid_values boardC2w 0 1).1.contains 5 = true ↔
      createsDuplicate boardC2w 0 1 5 = false) :=
  C2_amended_candidates_iff_no_duplicate boardC2w (by decide) (by decide)
    0 1 5 (by decide) (by decide) (by decide) (by decide)

/-- C3: for every board and cell `(r, c)` with `r, c` in `[0, 8]`,
`valid_candidates` restores every cell exactly (no net mutation), its
digits are strictly ascending within `[1, 9]`, and calling it twice in a
row with no intervening mutation returns identical results. -/
theorem C3_valid_values_pure_sorted_idempotent (g : Grid) (r c : Nat)
    (hr : r < 9) (hc : c < 9) :
    (valid_values g r c).2 = g ∧
    ascendingOK (valid_values g r c).1 = true ∧
    digitsOK (valid_values g r c).1 = true ∧
    valid_values ((valid_values g r c).2) r c = valid_values g r c := by
  refine ⟨valid_values_snd g r c, valid_values_ascending g r c,
    valid_values_digits g r c, ?_⟩
  rw [valid_values_snd]

/-- Witness for C3 at the sample puzzle, cell (0, 0). -/
theorem C3_witness :
    (valid_values samplePuzzle 0 0).2 = samplePuzzle ∧
    ascendingOK (valid_values samplePuzzle 0 0).1 = true ∧
    digitsOK (valid_values samplePuzzle 0 0).1 = true ∧
    valid_values ((valid_values samplePuzzle 0 0).2) 0 0 =
      valid_values samplePuzzle 0 0 :=
  C3_valid_values_pure_sorted_idempotent samplePuzzle 0 0 (by decide) (by decide)

/-- C4: for every structurally well-formed board, `is_valid` returns
true iff each of the 27 groups — the 9 rows, the 9 columns, and the 9
non-overlapping block-aligned 3x3 sub-squares — has pairwise-distinct
non-zero entries after excluding its 0-valued entries. -/
theorem C4_is_valid_eq_claim_groups (g : Grid) (hw : wellFormed g) :
    is_valid g = claimGroupsValid g := by
  rw [Bool.eq_iff_iff, is_valid_iff_groups hw]
  unfold claimGroupsValid
  rw [List.all_eq_true]
  constructor
  · intro h x hx
    have hk := List.mem_range.mp hx
    obtain ⟨h1, h2, h3⟩ := h x hk
    rw [is_valid_group_iff] at h1 h2 h3
    simp [h1, h2, h3]
  · intro h k hk
    have hx := h k (List.mem_range.mpr hk)
    simp only [Bool.and_eq_true, decide_eq_true_eq] at hx
    rw [is_valid_group_iff, is_valid_group_iff, is_valid_group_iff]
    exact ⟨hx.1.1, hx.1.2, hx.2⟩

/-- Witness for C4 at the sample puzzle. -/
theorem C4_witness : is_valid samplePuzzle = claimGroupsValid samplePuzzle :=
  C4_is_valid_eq_claim_groups samplePuzzle (by decide)

/-- C5: for every board, if `solve` reports failure (`None`), every cell
of the board holds the same value as at the moment `solve` was entered:
each tentative write is undone before the next candidate, and on
exhausting all candidates the chosen cell is left at 0, so failure
leaves no net mutation at any recursion level. -/
theorem C5_solve_failure_restores (g : Grid) (hfail : (solve g).2 = false) :
    (solve g).1 = g :=
  solveFuel_restore _ g hfail

/-- Witness for C5 at a concrete unsolvable board. -/
theorem C5_witness : (solve boardC5w).1 = boardC5w :=
  C5_solve_failure_restores boardC5w (by decide)

/-- C6: for every well-formed initial board containing a provable
contradiction — `is_valid` false, e.g. two equal non-zero clues in one
column — `solve` returns failure (`NotSolvable`); being a total
function of the board, the embedded solver neither hangs nor crashes. -/
theorem C6_contradiction_not_solvable (g : Grid) (hw : wellFormed g)
    (hinv : is_valid g = false) : (solve g).2 = false := by
  unfold solve
  rw [solveFuel_succ]
  have hfin : is_finished g = false := by
    unfold is_finished
    rw [hinv]
    simp
  simp only [hfin, Bool.false_eq_true, if_false]
  cases hz : findFirstZero g with
  | none => rfl
  | some rc =>
    obtain ⟨r, c⟩ := rc
    obtain ⟨hr, hc, h0⟩ := findFirstZero_spec hz
    simp only [hz]
    rw [valid_values_nil_of_invalid hw hr hc h0 hinv]
    rfl

/-- Witness for C6 at a board with two 5s in column 0. -/
theorem C6_witness : (solve boardC6w).2 = false :=
  C6_contradiction_not_solvable boardC6w (by decide) (by decide)

/-- C7: the solver terminates — the recursion is well-founded on the
number of empty cells: that number is at most 81, any fuel of at least
82 produces the very same result as `solve`, and each cell offers at
most 9 candidates. -/
theorem C7_termination_fuel_bound (g : Grid) (hw : wellFormed g)
    (n : Nat) (hn : 81 ≤ n) (r c : Nat) :
    solveFuel (n + 1) g = solve g ∧ numZeros g ≤ 81 ∧
      (valid_values g r c).1.length ≤ 9 :=
  ⟨solveFuel_eq_solve hw hn, numZeros_le g, valid_values_length_le g r c⟩

/-- Witness for C7 at a concrete near-complete board. -/
theorem C7_witness :
    solveFuel (81 + 1) boardC7w = solve boardC7w ∧ numZeros boardC7w ≤ 81 ∧
      (valid_values boardC7w 0 0).1.length ≤ 9 :=
  C7_termination_fuel_bound boardC7w (by decide) 81 (by decide) 0 0

/-- C8 counterexample: the access `get(-1, 0)` uses a row index outside
`[0, 8]` yet does not fail — Python's negative indexing silently reads
the cell (8, 0). -/
theorem C8_counterexample :
    get_value_py boardC8cex (-1) 0 = some 7 ∧ get_value boardC8cex 8 0 = 7 := by
  decide

/-- C8 (amended): a cell access `get(row, col)` or `set(row, col, v)`
fails (raises `IndexError`, the code's stand-in for `OutOfBounds`) if
and only if `row` or `col` lies outside `[-9, 8]`; indices in `[-9, -1]`
do not fail but are silently resolved against the end of the list
(index + 9), reading or writing that cell. -/
theorem C8_amended_py_index_semantics (g : Grid) (hw : wellFormed g)
    (r c : Int) (v : Nat) :
    get_value_py g r c = (if r < -9 ∨ 8 < r ∨ c < -9 ∨ 8 < c then none
      else some (get_value g (pyNorm r) (pyNorm c))) ∧
    set_value_py g r c v = (if r < -9 ∨ 8 < r ∨ c < -9 ∨ 8 < c then none
      else some (set_value g (pyNorm r) (pyNorm c) v)) :=
  get_set_py_spec hw r c v

/-- Witness for the amended C8 at a concrete board and indices. -/
theorem C8_witness :
    get_value_py boardC8cex (-1) 0 =
      (if (-1 : Int) < -9 ∨ 8 < (-1 : Int) ∨ (0 : Int) < -9 ∨ 8 < (0 : Int)
       then none else some (get_value boardC8cex (pyNorm (-1)) (pyNorm 0))) ∧
    set_value_py boardC8cex (-1) 0 3 =
      (if (-1 : Int) < -9 ∨ 8 < (-1 : Int) ∨ (0 : Int) < -9 ∨ 8 < (0 : Int)
       then none else some (set_value boardC8cex (pyNorm (-1)) (pyNorm 0) 3)) :=
  C8_amended_py_index_semantics boardC8cex (by decide) (-1) 0 3

/-- C9: for every structurally well-formed board, the string rendering
is exactly the 9 grid rows — `.` for a 0 cell, a single space between
digits of the same 3-cell group, a ` | ` separator every 3 columns,
each line 21 characters — with a row of exactly 21 `-` characters
inserted before the 4th and before the 7th printed grid rows, and
nothing else.  The rendering is a pure function of the grid: it
performs no writes. -/
theorem C9_render_structure (g : Grid) (hw : wellFormed g) :
    boardStr g = String.intercalate "\n"
      [renderRowClaim g 0, renderRowClaim g 1, renderRowClaim g 2, dashLine,
       renderRowClaim g 3, renderRowClaim g 4, renderRowClaim g 5, dashLine,
       renderRowClaim g 6, renderRowClaim g 7, renderRowClaim g 8] ∧
    lineLengthsOK g = true ∧ dashLine.length = 21 ∧
    dashLine = "---------------------" := by
  refine ⟨?_, lineLengthsOK_of_wellFormed hw, by decide, by decide⟩
  unfold boardStr
  rw [boardLines_eq hw,
    formatRow_eq_renderRow hw (show (0 : Nat) < 9 by omega),
    formatRow_eq_renderRow hw (show (1 : Nat) < 9 by omega),
    formatRow_eq_renderRow hw (show (2 : Nat) < 9 by omega),
    formatRow_eq_renderRow hw (show (3 : Nat) < 9 by omega),
    formatRow_eq_renderRow hw (show (4 : Nat) < 9 by omega),
    formatRow_eq_renderRow hw (show (5 : Nat) < 9 by omega),
    formatRow_eq_renderRow hw (show (6 : Nat) < 9 by omega),
    formatRow_eq_renderRow hw (show (7 : Nat) < 9 by omega),
    formatRow_eq_renderRow hw (show (8 : Nat) < 9 by omega)]

/-- Witness for C9 at the sample puzzle. -/
theorem C9_witness :
    boardStr samplePuzzle = String.intercalate "\n"
      [renderRowClaim samplePuzzle 0, renderRowClaim samplePuzzle 1,
       renderRowClaim samplePuzzle 2, dashLine,
       renderRowClaim samplePuzzle 3, renderRowClaim samplePuzzle 4,
       renderRowClaim samplePuzzle 5, dashLine,
       renderRowClaim samplePuzzle 6, renderRowClaim samplePuzzle 7,
       renderRowClaim samplePuzzle 8] ∧
    lineLengthsOK samplePuzzle = true ∧ dashLine.length = 21 ∧
    dashLine = "---------------------" :=
  C9_render_structure samplePuzzle (by decide)

/-- C10: `is_valid` and `is_finished` are read-only queries — embedded
as grid-preserving state functions, because their code performs only
reads (directly and via the derived row, column and square views):
any sequence of these queries leaves the board state unchanged and
cannot alter the result of subsequent queries, and both queries are
functions of the 81 cell contents alone. -/
theorem C10_queries_read_only (qs1 qs2 : List Query) (g g2 : Grid)
    (hw : wellFormed g) (hw2 : wellFormed g2)
    (hsame : ∀ a b, a < 9 → b < 9 → get_value g a b = get_value g2 a b) :
    (runQueries qs1 g).2 = g ∧
    (runQueries (qs1 ++ qs2) g).1 =
      (runQueries qs1 g).1 ++ (runQueries qs2 g).1 ∧
    is_valid g = is_valid g2 ∧ is_finished g = is_finished g2 :=
  ⟨runQueries_state qs1 g, runQueries_append qs1 qs2 g,
   is_valid_congr hw hw2 hsame, is_finished_congr hw hw2 hsame⟩

/-- Witness for C10 at the sample puzzle. -/
theorem C10_witness :
    (runQueries [Query.isValidQ] samplePuzzle).2 = samplePuzzle ∧
    (runQueries ([Query.isValidQ] ++ [Query.isFinishedQ]) samplePuzzle).1 =
      (runQueries [Query.isValidQ] samplePuzzle).1 ++
        (runQueries [Query.isFinishedQ] samplePuzzle).1 ∧
    is_valid samplePuzzle = is_valid samplePuzzle ∧
    is_finished samplePuzzle = is_finished samplePuzzle :=
  C10_queries_read_only [Query.isValidQ] [Query.isFinishedQ]
    samplePuzzle samplePuzzle (by decide) (by decide) (fun _ _ _ _ => rfl)

end Sudoku
